import Mathlib

set_option autoImplicit false

/-!
Verification of the evidence-enrichment core of `cmmc_parser_evidence_bigdam.py`.

Python strings are embedded as `List Char`; a cell that is absent from a row or
holds NaN is embedded as `none : Option (List Char)`.  All functions are
translated line by line from the `CMMCParser` methods of the source file.
-/

/-- The whitespace characters removed by Python's `str.strip()` (ASCII range). -/
def isPySpace (c : Char) : Bool :=
  c = ' ' || c = '\t' || c = '\n' || c = '\r' || c = Char.ofNat 11 || c = Char.ofNat 12

/-- Python `str.strip()`: drop leading and trailing whitespace. -/
def pyStrip (s : List Char) : List Char :=
  ((s.dropWhile isPySpace).reverse.dropWhile isPySpace).reverse

/-- Python `str.upper()` (ASCII behaviour suffices for the markers used here). -/
def upperL (s : List Char) : List Char :=
  s.map Char.toUpper

/-- Test `startsWith2 p s`: `p` occurs at the very start of `s`. -/
def startsWith2 : List Char → List Char → Bool
  | [], _ => true
  | _ :: _, [] => false
  | p :: ps, c :: cs => p = c && startsWith2 ps cs

/-- Python's `pat in s` substring test. -/
def containsSub (pat : List Char) : List Char → Bool
  | [] => startsWith2 pat []
  | c :: cs => startsWith2 pat (c :: cs) || containsSub pat cs

/-- Tail of `splitOnChar`: `acc` holds the (reversed) current piece. -/
def splitOnCharAux (sep : Char) : List Char → List Char → List (List Char)
  | [], acc => [acc.reverse]
  | c :: cs, acc =>
    if c = sep then acc.reverse :: splitOnCharAux sep cs []
    else splitOnCharAux sep cs (c :: acc)

/-- Python `s.split(sep)` for a single-character separator. -/
def splitOnChar (sep : Char) (s : List Char) : List (List Char) :=
  splitOnCharAux sep s []

/-- Python `item.endswith('.')`. -/
def endsWithPeriod (item : List Char) : Bool :=
  decide (item.getLast? = some '.')

/-- The placeholder skip-list of `parse_delimited_content`
(`['', 'header', 'bullet_1', 'bullet_2', 'bullet1', 'bullet2']`). -/
def placeholderTokens : List (List Char) :=
  [[], "header".data, "bullet_1".data, "bullet_2".data, "bullet1".data, "bullet2".data]

/-- Source lines 190-191: strip a single trailing period, re-stripping the
remainder. -/
def stripTrailingPeriod (item : List Char) : List Char :=
  if endsWithPeriod item then pyStrip item.dropLast else item

/-- One loop iteration of `parse_delimited_content`: strip the piece, filter
placeholders, strip one trailing period (re-stripping). -/
def processPiece (raw : List Char) : Option (List Char) :=
  if pyStrip raw ≠ [] ∧ pyStrip raw ∉ placeholderTokens then
    some (stripTrailingPeriod (pyStrip raw))
  else none

/-- Method `CMMCParser.parse_delimited_content` (source lines 172-194). -/
def parse_delimited_content (content : Option (List Char)) : List (List Char) :=
  match content with
  | none => []
  | some s =>
    if s = [] then []
    else
      (splitOnChar ';' (s.map (fun c => if c = '|' then ';' else c))).filterMap processPiece

example : parse_delimited_content (some "a|b;c".data) = ["a".data, "b".data, "c".data] := by decide

example : parse_delimited_content (some "header".data) = [] := by decide

example : parse_delimited_content (some "header.".data) = ["header".data] := by decide

example : parse_delimited_content (some " Manual review. ".data) = ["Manual review".data] := by decide

/-- One row of the evidence-enrichment CSV.  `none` stands for an absent column
or a NaN cell; `some s` for a present string cell (possibly empty). -/
structure EvidenceRow where
  file_Name : Option (List Char)
  current_Sharepoint_Link : Option (List Char)
  description : Option (List Char)
  suggested_CMMC_Mappings : Option (List Char)
  provided_CMMC_Mappings : Option (List Char)
deriving DecidableEq

/-- The bracketed-link part of `format_evidence_entry` (source lines 147-150). -/
def linkPart (row : EvidenceRow) : List (List Char) :=
  match row.current_Sharepoint_Link with
  | some l => if l ≠ [] then [('[' :: pyStrip l) ++ [']']] else []
  | none => []

/-- The `File_Name` fallback branch of `format_evidence_entry` (lines 159-162). -/
def filePart (row : EvidenceRow) : List (List Char) :=
  match row.file_Name with
  | some f => if f ≠ [] then [pyStrip f] else []
  | none => []

/-- The descriptive part of `format_evidence_entry` (lines 152-162): the
description when present, non-empty and free of `IGNORE`; the file name only
when the description is absent or empty. -/
def descPart (row : EvidenceRow) : List (List Char) :=
  match row.description with
  | some d =>
    if d ≠ [] then
      let dd := pyStrip d
      if containsSub "IGNORE".data (upperL dd) then [] else [dd]
    else filePart row
  | none => filePart row

/-- Method `CMMCParser.format_evidence_entry` (source lines 143-170). -/
def format_evidence_entry (row : EvidenceRow) : List Char :=
  match linkPart row ++ descPart row with
  | [p1, p2] => p1 ++ " - ".data ++ p2
  | p :: _ => p
  | [] => []

/-- The skip test of source lines 106-110: a present description containing
`IGNORE` case-insensitively. -/
def rowIgnored (row : EvidenceRow) : Bool :=
  match row.description with
  | some d => containsSub "IGNORE".data (upperL d)
  | none => false

/-- The `elif` branch of source lines 122-126: fall back to
`Provided_CMMC_Mappings` when it is present and non-empty. -/
def providedMappings (row : EvidenceRow) : List (List Char) :=
  match row.provided_CMMC_Mappings with
  | some p => if p ≠ [] then parse_delimited_content (some p) else []
  | none => []

/-- Source lines 116-126: `Suggested_CMMC_Mappings` first, `Provided` only as
fallback. -/
def rowMappings (row : EvidenceRow) : List (List Char) :=
  match row.suggested_CMMC_Mappings with
  | some s => if s ≠ [] then parse_delimited_content (some s) else providedMappings row
  | none => providedMappings row

/-- The `evidence_map` dictionary: control identifier to ordered evidence
entries, in insertion order of the keys. -/
abbrev EvidenceIndex := List (List Char × List (List Char))

/-- Dictionary lookup on the index. -/
def indexFind (idx : EvidenceIndex) (k : List Char) : Option (List (List Char)) :=
  match idx with
  | [] => none
  | (k2, v) :: rest => if k2 = k then some v else indexFind rest k

/-- Source lines 131-134: append `v` to the list stored under `k`, creating
the key at the end when it is new. -/
def indexAppend (idx : EvidenceIndex) (k : List Char) (v : List Char) : EvidenceIndex :=
  match idx with
  | [] => [(k, [v])]
  | (k2, vs) :: rest =>
    if k2 = k then (k2, vs ++ [v]) :: rest else (k2, vs) :: indexAppend rest k v

/-- One iteration of the row loop of `load_evidence_enrichment`
(source lines 101-135). -/
def processRow (idx : EvidenceIndex) (row : EvidenceRow) : EvidenceIndex :=
  if row.suggested_CMMC_Mappings = none ∧ row.provided_CMMC_Mappings = none then idx
  else if rowIgnored row then idx
  else
    let entry := format_evidence_entry row
    (rowMappings row).foldl
      (fun acc cid =>
        let cid := pyStrip cid
        if cid ≠ [] then indexAppend acc cid entry else acc)
      idx

/-- Method `CMMCParser.load_evidence_enrichment`, restricted to its row-processing
loop over the already-parsed evidence rows (source lines 101-135). -/
def load_evidence_enrichment (rows : List EvidenceRow) : EvidenceIndex :=
  rows.foldl processRow []

/-- The seen-set deduplication loop of `get_enriched_evidence_strings`
(source lines 208-214). -/
def dedupSeen (seen : List (List Char)) : List (List Char) → List (List Char)
  | [] => []
  | x :: xs => if x ∈ seen then dedupSeen seen xs else x :: dedupSeen (x :: seen) xs

/-- Source lines 200-202: the control's own inline evidence items, parsed only
when the raw text is present (truthy) and non-empty. -/
def inlineItems (existing_evidence : Option (List Char)) : List (List Char) :=
  match existing_evidence with
  | some e => if e ≠ [] then parse_delimited_content (some e) else []
  | none => []

/-- Method `CMMCParser.get_enriched_evidence_strings` (source lines 196-216). -/
def get_enriched_evidence_strings (idx : EvidenceIndex) (cmmc_id : List Char)
    (existing_evidence : Option (List Char)) : List (List Char) :=
  dedupSeen [] (inlineItems existing_evidence ++ (indexFind idx cmmc_id).getD [])

/-- One row of the primary (control) CSV, restricted to the columns read by
`validate_csv_data`.  `score = none` stands for a cell that is not one of the
integers the code compares against (NaN or malformed); `ar_CAP_POAM` is the
`str()` rendering of the status cell. -/
structure ControlRow where
  cmmc_ID : Option (List Char)
  control : Option (List Char)
  score : Option Int
  ar_CAP_POAM : List Char
deriving DecidableEq

/-- Decimal digits of a natural number. -/
def natChars (n : Nat) : List Char :=
  (Nat.toDigits 10 n)

/-- Python `str()` of the score cell as it appears in the f-string messages. -/
def scoreChars (sc : Option Int) : List Char :=
  match sc with
  | some n => (toString n).data
  | none => "nan".data

/-- The error message of source line 246. -/
def msgMissingId (i : Nat) : List Char :=
  "Row ".data ++ natChars i ++ ": Missing CMMC_ID".data

/-- The warning message of source line 252. -/
def msgMissingControl (cid : List Char) : List Char :=
  "Control ".data ++ cid ++ ": Missing Control description".data

/-- The error message of source line 256. -/
def msgInvalidScore (cid : List Char) (sc : Option Int) : List Char :=
  "Control ".data ++ cid ++ ": Invalid Score value '".data ++ scoreChars sc
    ++ "' (must be 1, 3, or 5)".data

/-- The error message of source lines 260-262. -/
def msgPoam (cid : List Char) (sc : Option Int) (status : List Char) : List Char :=
  "Control ".data ++ cid ++ ": CRITICAL - Score=".data ++ scoreChars sc
    ++ " (non-POAMable) but AR_CAP_POAM='".data ++ status ++ [Char.ofNat 39]

/-- The errors appended for row number `i` by one iteration of the
`validate_csv_data` loop (source lines 243-262). -/
def rowErrs (i : Nat) (row : ControlRow) : List (List Char) :=
  match row.cmmc_ID with
  | none => [msgMissingId i]
  | some rawId =>
    if pyStrip rawId = [] then [msgMissingId i]
    else
      (if row.score = some 1 ∨ row.score = some 3 ∨ row.score = some 5 then []
       else [msgInvalidScore rawId row.score])
      ++
      (if (row.score = some 3 ∨ row.score = some 5)
          ∧ (upperL row.ar_CAP_POAM = "POA&M".data ∨ upperL row.ar_CAP_POAM = "POAM".data) then
        [msgPoam rawId row.score row.ar_CAP_POAM]
       else [])

/-- The warnings appended for one row by `validate_csv_data`
(source lines 251-252); none when the row lacks a usable `CMMC_ID`. -/
def rowWarns (row : ControlRow) : List (List Char) :=
  match row.cmmc_ID with
  | none => []
  | some rawId =>
    if pyStrip rawId = [] then []
    else
      match row.control with
      | none => [msgMissingControl rawId]
      | some c => if c = [] then [msgMissingControl rawId] else []

/-- Accumulator loop of `validate_csv_data`: threads the mutable
`validation_errors` and `validation_warnings` lists through the rows. -/
def validateAux (i : Nat) (errs warns : List (List Char)) :
    List ControlRow → List (List Char) × List (List Char)
  | [] => (errs, warns)
  | row :: rest => validateAux (i + 1) (errs ++ rowErrs i row) (warns ++ rowWarns row) rest

/-- Method `CMMCParser.validate_csv_data` (source lines 239-262): the ordered error
and warning lists collected over all rows. -/
def validate_csv_data (rows : List ControlRow) : List (List Char) × List (List Char) :=
  validateAux 0 [] [] rows

/-! ## Specification-side definitions

These follow the wording of the specification, to be compared with the
definitions above that were translated from the source. -/

/-- The five placeholder tokens named by the spec (the empty string is listed
separately there). -/
def specPlaceholders : List (List Char) :=
  ["header".data, "bullet_1".data, "bullet_2".data, "bullet1".data, "bullet2".data]

/-- Modelled from the spec's words for the normalizer (4.1): replace `|` by
`;`, split on `;`, trim each piece, drop pieces that are empty or equal to a
placeholder token, then strip a single trailing period from each survivor. -/
def normalizerSpec (content : Option (List Char)) : List (List Char) :=
  match content with
  | none => []
  | some s =>
    ((((splitOnChar ';' (s.map (fun c => if c = '|' then ';' else c))).map
        pyStrip).filter
        (fun it => ¬(it = [] ∨ it ∈ specPlaceholders))).map
        stripTrailingPeriod)

/-- First-occurrence deduplication, worded as the spec has it: keep each
element at its first occurrence, filtering later equal elements out. -/
def firstOcc : List (List Char) → List (List Char)
  | [] => []
  | x :: xs => x :: firstOcc (xs.filter (fun y => y ≠ x))
termination_by l => l.length
decreasing_by
  exact Nat.lt_succ_of_le (List.length_filter_le _ xs)

/-- Per-row results enumerated with their row numbers, starting at `i`. -/
def mapIdxFrom {α β : Type} (f : Nat → α → β) : Nat → List α → List β
  | _, [] => []
  | i, x :: xs => f i x :: mapIdxFrom f (i + 1) xs

/-! ## Helper lemmas about the string primitives -/

theorem splitOnCharAux_no_sep {sep : Char} {l : List Char} (h : sep ∉ l) :
    ∀ acc, splitOnCharAux sep l acc = [acc.reverse ++ l] := by
  induction l with
  | nil => intro acc; simp [splitOnCharAux]
  | cons c cs ih =>
    intro acc
    have hc : ¬ c = sep := by
      intro e; exact h (by simp [e])
    have hcs : sep ∉ cs := fun m => h (List.mem_cons_of_mem _ m)
    simp [splitOnCharAux, hc, ih hcs (c :: acc)]

theorem no_sep_of_mem_splitOnCharAux {sep : Char} :
    ∀ {l acc : List Char}, sep ∉ acc → ∀ p ∈ splitOnCharAux sep l acc, sep ∉ p := by
  intro l
  induction l with
  | nil =>
    intro acc hacc p hp
    simp [splitOnCharAux] at hp
    subst hp
    simpa using hacc
  | cons c cs ih =>
    intro acc hacc p hp
    by_cases hc : c = sep
    · simp [splitOnCharAux, hc] at hp
      rcases hp with hp | hp
      · subst hp; simpa using hacc
      · exact ih (by simp) p hp
    · simp [splitOnCharAux, hc] at hp
      refine ih ?_ p hp
      intro hm
      rcases List.mem_cons.mp hm with e | e
      · exact hc e.symm
      · exact hacc e

theorem mem_of_mem_splitOnCharAux {sep : Char} :
    ∀ {l acc : List Char}, ∀ p ∈ splitOnCharAux sep l acc, ∀ c ∈ p, c ∈ acc ∨ c ∈ l := by
  intro l
  induction l with
  | nil =>
    intro acc p hp c hc
    simp [splitOnCharAux] at hp
    subst hp
    exact Or.inl (List.mem_reverse.mp hc)
  | cons a cs ih =>
    intro acc p hp c hc
    by_cases ha : a = sep
    · simp [splitOnCharAux, ha] at hp
      rcases hp with hp | hp
      · subst hp; exact Or.inl (List.mem_reverse.mp hc)
      · rcases ih p hp c hc with h | h
        · exact absurd h (by simp)
        · exact Or.inr (List.mem_cons_of_mem _ h)
    · simp [splitOnCharAux, ha] at hp
      rcases ih p hp c hc with h | h
      · rcases List.mem_cons.mp h with e | e
        · exact Or.inr (by simp [e])
        · exact Or.inl e
      · exact Or.inr (List.mem_cons_of_mem _ h)

theorem splitOnChar_no_sep {sep : Char} {l : List Char} (h : sep ∉ l) :
    splitOnChar sep l = [l] := by
  simpa using splitOnCharAux_no_sep h []

theorem no_sep_of_mem_splitOnChar {sep : Char} {l p : List Char}
    (hp : p ∈ splitOnChar sep l) : sep ∉ p :=
  no_sep_of_mem_splitOnCharAux (by simp) p hp

theorem mem_of_mem_splitOnChar {sep : Char} {l p : List Char}
    (hp : p ∈ splitOnChar sep l) {c : Char} (hc : c ∈ p) : c ∈ l := by
  rcases mem_of_mem_splitOnCharAux p hp c hc with h | h
  · exact absurd h (by simp)
  · exact h

theorem mem_of_mem_pyStrip {c : Char} {l : List Char} (h : c ∈ pyStrip l) : c ∈ l := by
  unfold pyStrip at h
  rw [List.mem_reverse] at h
  have h1 := (List.dropWhile_sublist (l := (l.dropWhile isPySpace).reverse) isPySpace).subset h
  rw [List.mem_reverse] at h1
  exact (List.dropWhile_sublist (l := l) isPySpace).subset h1

theorem dropWhile_eq_self_of_head {p : Char → Bool} {l : List Char}
    (h : ∀ a, l.head? = some a → p a = false) : l.dropWhile p = l := by
  cases l with
  | nil => rfl
  | cons a t => simp [List.dropWhile_cons, h a rfl]

theorem getLast?_dropWhile {p : Char → Bool} {l : List Char} (h : l.dropWhile p ≠ []) :
    (l.dropWhile p).getLast? = l.getLast? := by
  obtain ⟨t, ht⟩ := List.dropWhile_suffix (l := l) p
  conv_rhs => rw [← ht]
  rw [List.getLast?_append]
  cases hx : (l.dropWhile p).getLast? with
  | none =>
    exact absurd (List.getLast?_eq_none_iff.mp hx) h
  | some a => rfl

theorem pyStrip_idem (l : List Char) : pyStrip (pyStrip l) = pyStrip l := by
  unfold pyStrip
  have h1 : ((l.dropWhile isPySpace).reverse.dropWhile isPySpace).reverse.dropWhile isPySpace
      = ((l.dropWhile isPySpace).reverse.dropWhile isPySpace).reverse := by
    apply dropWhile_eq_self_of_head
    intro a ha
    rw [List.head?_reverse] at ha
    have hBne : (l.dropWhile isPySpace).reverse.dropWhile isPySpace ≠ [] := by
      intro e; rw [e] at ha; simp at ha
    have h2 := getLast?_dropWhile hBne
    rw [List.getLast?_reverse] at h2
    rw [h2] at ha
    have h3 := List.head?_dropWhile_not isPySpace l
    rw [ha] at h3
    exact h3
  rw [h1, List.reverse_reverse, List.dropWhile_idempotent]

theorem startsWith2_self_append (p b : List Char) : startsWith2 p (p ++ b) = true := by
  induction p with
  | nil => rfl
  | cons c cs ih => simp [startsWith2, ih]

theorem containsSub_self_append : ∀ pat b : List Char, containsSub pat (pat ++ b) = true
  | [], b => by cases b <;> simp [containsSub, startsWith2]
  | p :: ps, b => by
    simp only [List.cons_append, containsSub, List.append_eq]
    rw [show p :: (ps ++ b) = (p :: ps) ++ b from rfl, startsWith2_self_append]
    simp

theorem containsSub_middle (a pat b : List Char) :
    containsSub pat (a ++ (pat ++ b)) = true := by
  induction a with
  | nil => simpa using containsSub_self_append pat b
  | cons c cs ih =>
    simp only [List.cons_append, containsSub, List.append_eq]
    rw [ih]
    simp

/-! ## Lemmas about the normalizer -/

theorem placeholderTokens_eq : placeholderTokens = [] :: specPlaceholders := rfl

theorem processPiece_none {raw : List Char}
    (h : pyStrip raw = [] ∨ pyStrip raw ∈ specPlaceholders) :
    processPiece raw = none := by
  simp only [processPiece]
  rw [if_neg]
  rintro ⟨h1, h2⟩
  rcases h with h | h
  · exact h1 h
  · exact h2 (by rw [placeholderTokens_eq]; exact List.mem_cons_of_mem _ h)

theorem processPiece_some {raw : List Char}
    (h : ¬(pyStrip raw = [] ∨ pyStrip raw ∈ specPlaceholders)) :
    processPiece raw = some (stripTrailingPeriod (pyStrip raw)) := by
  push_neg at h
  simp only [processPiece]
  rw [if_pos]
  exact ⟨h.1, by
    rw [placeholderTokens_eq]
    intro hm
    rcases List.mem_cons.mp hm with e | e
    · exact h.1 e
    · exact h.2 e⟩

theorem filterMap_processPiece (pieces : List (List Char)) :
    pieces.filterMap processPiece
      = (((pieces.map pyStrip).filter
          (fun it => ¬(it = [] ∨ it ∈ specPlaceholders))).map stripTrailingPeriod) := by
  induction pieces with
  | nil => rfl
  | cons raw rest ih =>
    by_cases h : pyStrip raw = [] ∨ pyStrip raw ∈ specPlaceholders
    · rcases h with h | h
      · simp [List.filterMap_cons, processPiece_none (Or.inl h), List.filter_cons, ih, h]
      · simp [List.filterMap_cons, processPiece_none (Or.inr h), List.filter_cons, ih, h]
    · have h2 := h
      push_neg at h2
      simp [List.filterMap_cons, processPiece_some h, List.filter_cons, ih, h2.1, h2.2]

/-- Every item produced by the normalizer is already trimmed and contains
neither separator character. -/
theorem parse_mem_struct {c : Option (List Char)} {item : List Char}
    (hmem : item ∈ parse_delimited_content c) :
    pyStrip item = item ∧ ';' ∉ item ∧ '|' ∉ item := by
  match c with
  | none => exact absurd hmem (by simp [parse_delimited_content])
  | some s =>
    by_cases hs : s = []
    · subst hs; exact absurd hmem (by simp [parse_delimited_content])
    · rw [parse_delimited_content, if_neg hs] at hmem
      obtain ⟨raw, hraw, hproc⟩ := List.mem_filterMap.mp hmem
      have hsemi : ';' ∉ raw := no_sep_of_mem_splitOnChar hraw
      have hbar : '|' ∉ raw := by
        intro hb
        have := mem_of_mem_splitOnChar hraw hb
        obtain ⟨orig, _, horig⟩ := List.mem_map.mp this
        by_cases ho : orig = '|' <;> simp [ho] at horig
      by_cases hcond : pyStrip raw = [] ∨ pyStrip raw ∈ specPlaceholders
      · rw [processPiece_none hcond] at hproc; exact absurd hproc (by simp)
      · rw [processPiece_some hcond] at hproc
        have hi : item = stripTrailingPeriod (pyStrip raw) := by
          exact (Option.some.injEq _ _ ▸ hproc).symm
        have hsub : ∀ x ∈ item, x ∈ raw := by
          intro x hx
          rw [hi] at hx
          unfold stripTrailingPeriod at hx
          by_cases hper : endsWithPeriod (pyStrip raw)
          · rw [if_pos hper] at hx
            exact mem_of_mem_pyStrip
              ((List.dropLast_sublist _).subset (mem_of_mem_pyStrip hx))
          · rw [if_neg hper] at hx
            exact mem_of_mem_pyStrip hx
        refine ⟨?_, fun hx => hsemi (hsub _ hx), fun hx => hbar (hsub _ hx)⟩
        rw [hi]
        unfold stripTrailingPeriod
        by_cases hper : endsWithPeriod (pyStrip raw)
        · rw [if_pos hper]; exact pyStrip_idem _
        · rw [if_neg hper]; exact pyStrip_idem raw

theorem map_id_of_no_bar {item : List Char} (h : '|' ∉ item) :
    item.map (fun c => if c = '|' then ';' else c) = item := by
  induction item with
  | nil => rfl
  | cons c cs ih =>
    have hc : ¬ c = '|' := fun e => h (by simp [e])
    have hcs : '|' ∉ cs := fun m => h (List.mem_cons_of_mem _ m)
    simp [hc, ih hcs]

/-! ## Lemmas about deduplication -/

theorem dedupSeen_eq_firstOcc :
    ∀ (l : List (List Char)) (seen : List (List Char)),
      dedupSeen seen l = firstOcc (l.filter (fun y => y ∉ seen)) := by
  intro l
  induction l with
  | nil => intro seen; simp [dedupSeen, firstOcc]
  | cons x xs ih =>
    intro seen
    by_cases hx : x ∈ seen
    · simp only [dedupSeen, if_pos hx, List.filter_cons]
      rw [if_neg (by simp [hx])]
      exact ih seen
    · simp only [dedupSeen, if_neg hx, List.filter_cons]
      rw [if_pos (by simp [hx])]
      rw [firstOcc, ih (x :: seen), List.filter_filter]
      refine congrArg _ (congrArg firstOcc (List.filter_congr ?_))
      intro y _
      by_cases hy : y ∈ seen <;> by_cases hyx : y = x <;> simp [hy, hyx]

theorem dedupSeen_nodup :
    ∀ (l seen : List (List Char)),
      (dedupSeen seen l).Nodup ∧ ∀ x ∈ dedupSeen seen l, x ∉ seen := by
  intro l
  induction l with
  | nil => intro seen; exact ⟨List.nodup_nil, by simp [dedupSeen]⟩
  | cons x xs ih =>
    intro seen
    by_cases hx : x ∈ seen
    · simpa only [dedupSeen, if_pos hx] using ih seen
    · simp only [dedupSeen, if_neg hx]
      obtain ⟨hnd, hns⟩ := ih (x :: seen)
      refine ⟨List.nodup_cons.mpr ⟨?_, hnd⟩, ?_⟩
      · intro hmem
        exact hns x hmem (by simp)
      · intro y hy
        rcases List.mem_cons.mp hy with e | e
        · subst e; exact hx
        · exact fun hys => hns y e (List.mem_cons_of_mem _ hys)

/-! ## Lemmas about the evidence index -/

theorem indexFind_indexAppend_ne {idx : EvidenceIndex} {k k2 : List Char} {v : List Char}
    (h : k2 ≠ k) : indexFind (indexAppend idx k2 v) k = indexFind idx k := by
  induction idx with
  | nil => simp [indexAppend, indexFind, h]
  | cons e rest ih =>
    obtain ⟨ek, ev⟩ := e
    by_cases he : ek = k2
    · subst he
      simp [indexAppend, indexFind, h]
    · simp only [indexAppend, if_neg he]
      by_cases hek : ek = k
      · simp [indexFind, hek]
      · simp [indexFind, hek, ih]

/-- The id-appending fold of `processRow` (source lines 129-134). -/
def addMappings (entry : List Char) (idx : EvidenceIndex) (ids : List (List Char)) :
    EvidenceIndex :=
  ids.foldl
    (fun acc cid =>
      let cid := pyStrip cid
      if cid ≠ [] then indexAppend acc cid entry else acc)
    idx

theorem processRow_eq_addMappings {idx : EvidenceIndex} {row : EvidenceRow}
    (h1 : ¬(row.suggested_CMMC_Mappings = none ∧ row.provided_CMMC_Mappings = none))
    (h2 : rowIgnored row = false) :
    processRow idx row = addMappings (format_evidence_entry row) idx (rowMappings row) := by
  simp [processRow, h1, h2, addMappings]

theorem indexFind_addMappings_ne {entry : List Char} {ids : List (List Char)}
    {k : List Char} (h : ∀ m ∈ ids, pyStrip m ≠ k) :
    ∀ idx, indexFind (addMappings entry idx ids) k = indexFind idx k := by
  induction ids with
  | nil => intro idx; rfl
  | cons m rest ih =>
    intro idx
    have hm : pyStrip m ≠ k := h m (by simp)
    have hrest : ∀ m2 ∈ rest, pyStrip m2 ≠ k := fun m2 hm2 => h m2 (List.mem_cons_of_mem _ hm2)
    by_cases hz : pyStrip m = []
    · simp only [addMappings, List.foldl_cons, hz]
      rw [if_neg (by simp)]
      exact ih hrest idx
    · simp only [addMappings, List.foldl_cons]
      rw [if_pos hz]
      exact (ih hrest _).trans (by rw [indexFind_indexAppend_ne hm])

/-! ## Lemmas about validation -/

theorem validateAux_spec :
    ∀ (rows : List ControlRow) (i : Nat) (errs warns : List (List Char)),
      validateAux i errs warns rows
        = (errs ++ (mapIdxFrom rowErrs i rows).flatten,
           warns ++ (rows.map rowWarns).flatten) := by
  intro rows
  induction rows with
  | nil => intro i errs warns; simp [validateAux, mapIdxFrom]
  | cons row rest ih =>
    intro i errs warns
    rw [validateAux, ih]
    simp [mapIdxFrom]

theorem parse_eq_normalizerSpec (c : Option (List Char)) :
    parse_delimited_content c = normalizerSpec c := by
  cases c with
  | none => rfl
  | some s =>
    by_cases hs : s = []
    · subst hs; decide
    · simp only [parse_delimited_content, normalizerSpec]
      rw [if_neg hs]
      exact filterMap_processPiece _

theorem inlineItems_eq_parse (ev : Option (List Char)) :
    inlineItems ev = parse_delimited_content ev := by
  cases ev with
  | none => rfl
  | some e =>
    by_cases he : e = []
    · subst he; simp [inlineItems, parse_delimited_content]
    · simp [inlineItems, he]

theorem filter_not_mem_nil (L : List (List Char)) :
    L.filter (fun y => y ∉ ([] : List (List Char))) = L := by
  induction L with
  | nil => rfl
  | cons a t ih => simp [List.filter_cons, ih]

/-! ## Claims -/

/-- C4: the normalizer replaces `|` by `;`, splits on `;`, trims, drops empty
and placeholder items, then strips a single trailing period (re-trimming);
absent or empty input yields `[]` and the normalizer never fails; `"a|b;c"`
yields `["a","b","c"]` and a placeholder token alone yields `[]`. -/
theorem normalizer_matches_spec :
    (∀ c, parse_delimited_content c = normalizerSpec c)
    ∧ parse_delimited_content (some "a|b;c".data) = ["a".data, "b".data, "c".data]
    ∧ (∀ t, t ∈ specPlaceholders → parse_delimited_content (some t) = [])
    ∧ parse_delimited_content none = []
    ∧ parse_delimited_content (some []) = [] := by
  refine ⟨parse_eq_normalizerSpec, by decide, ?_, rfl, by decide⟩
  intro t ht
  simp only [specPlaceholders, List.mem_cons, List.not_mem_nil, or_false] at ht
  rcases ht with rfl | rfl | rfl | rfl | rfl <;> decide

theorem normalizer_matches_spec_witness :
    parse_delimited_content (some "header".data) = [] :=
  normalizer_matches_spec.2.2.1 "header".data (by decide)

/-- C2: lookup returns the normalized inline items first, then the index's
entries for the identifier in insertion order, deduplicated by exact equality
keeping first occurrences; empty inline text plus no index entry yields `[]`. -/
theorem lookup_inline_then_index (idx : EvidenceIndex) (cid : List Char)
    (ev : Option (List Char)) :
    get_enriched_evidence_strings idx cid ev
      = firstOcc (parse_delimited_content ev ++ (indexFind idx cid).getD [])
    ∧ (get_enriched_evidence_strings idx cid ev).Nodup
    ∧ ((parse_delimited_content ev = [] ∧ indexFind idx cid = none) →
        get_enriched_evidence_strings idx cid ev = []) := by
  have key : get_enriched_evidence_strings idx cid ev
      = firstOcc (parse_delimited_content ev ++ (indexFind idx cid).getD []) := by
    unfold get_enriched_evidence_strings
    rw [dedupSeen_eq_firstOcc, filter_not_mem_nil, inlineItems_eq_parse]
  refine ⟨key, ?_, ?_⟩
  · exact (dedupSeen_nodup _ []).1
  · rintro ⟨he, hf⟩
    rw [key, he, hf]
    simp [firstOcc]

theorem lookup_inline_then_index_witness :
    get_enriched_evidence_strings [] "3.1.1".data none = [] :=
  (lookup_inline_then_index [] "3.1.1".data none).2.2 ⟨rfl, rfl⟩

/-- C6 counterexample: the normalizer is not idempotent on its own output.
`"header."` normalizes to `["header"]` but `"header"` normalizes to `[]`
(placeholder filtering happens before period stripping); `"a.."` produces
`"a."` which re-normalizes to `["a"]`; `"."` produces `""` which
re-normalizes to `[]`. -/
theorem normalizer_idempotence_cex :
    ("header".data ∈ parse_delimited_content (some "header.".data)
      ∧ parse_delimited_content (some "header".data) ≠ ["header".data])
    ∧ ("a.".data ∈ parse_delimited_content (some "a..".data)
      ∧ parse_delimited_content (some "a.".data) ≠ ["a.".data])
    ∧ ([] ∈ parse_delimited_content (some ".".data)
      ∧ parse_delimited_content (some ([] : List Char)) ≠ [([] : List Char)])
    ∧ ¬(∀ (c : Option (List Char)) (item : List Char),
        item ∈ parse_delimited_content c →
        parse_delimited_content (some item) = [item]) := by
  refine ⟨by decide, by decide, by decide, ?_⟩
  intro h
  have := h (some "header.".data) "header".data (by decide)
  exact absurd this (by decide)

/-- C6 (amended): the normalizer is idempotent on every produced item that is
non-empty, not a placeholder token, and does not end in a period: normalizing
such an item again yields exactly that item. -/
theorem normalizer_idempotent_amended (c : Option (List Char)) (item : List Char)
    (hmem : item ∈ parse_delimited_content c)
    (hne : item ≠ []) (hph : item ∉ specPlaceholders)
    (hper : endsWithPeriod item = false) :
    parse_delimited_content (some item) = [item] := by
  obtain ⟨hstrip, hsemi, hbar⟩ := parse_mem_struct hmem
  have hp : processPiece item = some item := by
    rw [processPiece_some (by rw [hstrip]; push_neg; exact ⟨hne, hph⟩)]
    rw [hstrip]
    unfold stripTrailingPeriod
    rw [hper]
    simp
  simp only [parse_delimited_content]
  rw [if_neg hne, map_id_of_no_bar hbar, splitOnChar_no_sep hsemi]
  simp [List.filterMap_cons, hp]

theorem normalizer_idempotent_amended_witness :
    parse_delimited_content (some "Manual review".data) = ["Manual review".data] :=
  normalizer_idempotent_amended (some "Manual review.".data) "Manual review".data
    (by decide) (by decide) (by decide) (by decide)

/-- C5: end to end, the evidence row with link `http://s`, description
`Backup logs` and primary mapping `3.4.1|3.4.2` enriches control `3.4.1`
(inline text `"Manual review."`) to exactly
`["Manual review", "[http://s] - Backup logs"]` and control `3.4.2` (no
inline text) to exactly `["[http://s] - Backup logs"]`. -/
theorem end_to_end_enrichment :
    get_enriched_evidence_strings
        (load_evidence_enrichment
          [⟨none, some "http://s".data, some "Backup logs".data,
            some "3.4.1|3.4.2".data, none⟩])
        "3.4.1".data (some "Manual review.".data)
      = ["Manual review".data, "[http://s] - Backup logs".data]
    ∧ get_enriched_evidence_strings
        (load_evidence_enrichment
          [⟨none, some "http://s".data, some "Backup logs".data,
            some "3.4.1|3.4.2".data, none⟩])
        "3.4.2".data none
      = ["[http://s] - Backup logs".data] := by
  decide

/-- C9: build keeps empty display entries.  A row with a non-empty mapping but
no link, no description and no file name formats to the empty string, which is
appended to the mapped identifier's list; lookup then returns a sequence
containing the empty string, at most once even when the row repeats. -/
theorem empty_entry_propagates :
    format_evidence_entry ⟨none, none, none, some "3.1.1".data, none⟩ = []
    ∧ load_evidence_enrichment [⟨none, none, none, some "3.1.1".data, none⟩]
        = [("3.1.1".data, [[]])]
    ∧ load_evidence_enrichment
        [⟨none, none, none, some "3.1.1".data, none⟩,
         ⟨none, none, none, some "3.1.1".data, none⟩]
        = [("3.1.1".data, [[], []])]
    ∧ get_enriched_evidence_strings
        (load_evidence_enrichment
          [⟨none, none, none, some "3.1.1".data, none⟩,
           ⟨none, none, none, some "3.1.1".data, none⟩])
        "3.1.1".data none
        = [([] : List Char)] := by
  decide

/-- C10: placeholder filtering precedes trailing-period stripping and is not
re-applied: `"header."` is not filtered and normalizes to `["header"]`, a
placeholder token in the output. -/
theorem placeholder_survives_period_strip :
    parse_delimited_content (some "header.".data) = ["header".data]
    ∧ "header".data ∈ specPlaceholders := by
  decide

/-- C1: when the primary (`Suggested`) mapping field is present and non-empty,
the row's entry goes only to identifiers parsed from it: the mapping list is
parsed from the primary field, the result of processing the row does not
depend on the secondary (`Provided`) field at all, identifiers outside the
primary field's parse are untouched, and the secondary field is consulted
only when the primary is absent or empty. -/
theorem build_primary_precedence (idx : EvidenceIndex) (row : EvidenceRow)
    (s : List Char) (hs : row.suggested_CMMC_Mappings = some s) (hne : s ≠ []) :
    rowMappings row = parse_delimited_content (some s)
    ∧ (∀ p, processRow idx { row with provided_CMMC_Mappings := p }
        = processRow idx row)
    ∧ (∀ k, (∀ m ∈ parse_delimited_content (some s), pyStrip m ≠ k) →
        indexFind (processRow idx row) k = indexFind idx k)
    ∧ (∀ row2 : EvidenceRow,
        row2.suggested_CMMC_Mappings = none ∨ row2.suggested_CMMC_Mappings = some [] →
        rowMappings row2 = providedMappings row2) := by
  obtain ⟨fn, link, desc, sug, prov⟩ := row
  simp only at hs
  subst hs
  refine ⟨?_, ?_, ?_, ?_⟩
  · simp [rowMappings, hne]
  · intro p
    simp [processRow, hne, rowMappings, rowIgnored, format_evidence_entry,
      linkPart, descPart, filePart]
  · intro k hk
    by_cases hig : rowIgnored ⟨fn, link, desc, some s, prov⟩ = true
    · rw [show processRow idx ⟨fn, link, desc, some s, prov⟩ = idx from by
        simp [processRow, hig]]
    · rw [processRow_eq_addMappings (by simp) (by simpa using hig)]
      rw [show rowMappings ⟨fn, link, desc, some s, prov⟩
          = parse_delimited_content (some s) from by simp [rowMappings, hne]]
      exact indexFind_addMappings_ne hk idx
  · intro row2 h
    rcases h with h | h <;> simp [rowMappings, h]

theorem build_primary_precedence_witness :
    indexFind
      (processRow [] ⟨none, none, none, some "3.1.1".data, some "3.1.2".data⟩)
      "3.1.2".data = none := by
  have h :=
    (build_primary_precedence []
      ⟨none, none, none, some "3.1.1".data, some "3.1.2".data⟩
      "3.1.1".data rfl (by decide)).2.2.1 "3.1.2".data (by decide)
  simpa using h

/-- C3: a row whose description contains `IGNORE` case-insensitively
contributes nothing to the index, regardless of its mapping fields: processing
it leaves any index unchanged, and removing it from the row list does not
change the built index. -/
theorem build_ignore_rule (row : EvidenceRow) (d : List Char)
    (hd : row.description = some d)
    (hig : containsSub "IGNORE".data (upperL d) = true) :
    (∀ idx, processRow idx row = idx)
    ∧ (∀ pre post, load_evidence_enrichment (pre ++ row :: post)
        = load_evidence_enrichment (pre ++ post)) := by
  have hrig : rowIgnored row = true := by
    unfold rowIgnored
    rw [hd]
    exact hig
  have hall : ∀ idx, processRow idx row = idx := by
    intro idx
    by_cases hskip : row.suggested_CMMC_Mappings = none ∧ row.provided_CMMC_Mappings = none
    · simp [processRow, hskip]
    · simp [processRow, hskip, hrig]
  refine ⟨hall, ?_⟩
  intro pre post
  unfold load_evidence_enrichment
  rw [List.foldl_append, List.foldl_append, List.foldl_cons, hall _]

theorem build_ignore_rule_witness :
    load_evidence_enrichment
      [⟨none, none, some "Old evidence - IGNORE".data, some "3.1.1".data, none⟩] = [] := by
  have h :=
    (build_ignore_rule
      ⟨none, none, some "Old evidence - IGNORE".data, some "3.1.1".data, none⟩
      "Old evidence - IGNORE".data rfl (by decide)).2 [] []
  simpa using h

/-- C7: the formatter joins `"[<link>] - <description>"` when both parts
exist, returns the single part alone when only one exists, the empty string
when neither exists, and uses the file name as descriptive part only when the
description is absent or empty; with the spec's three concrete examples. -/
theorem formatter_cases :
    (∀ (row : EvidenceRow) (l d : List Char),
      row.current_Sharepoint_Link = some l → l ≠ [] →
      row.description = some d → d ≠ [] →
      containsSub "IGNORE".data (upperL (pyStrip d)) = false →
      format_evidence_entry row = ('[' :: pyStrip l) ++ "] - ".data ++ pyStrip d)
    ∧ (∀ (row : EvidenceRow) (l : List Char),
      row.current_Sharepoint_Link = some l → l ≠ [] → descPart row = [] →
      format_evidence_entry row = ('[' :: pyStrip l) ++ "]".data)
    ∧ (∀ (row : EvidenceRow) (x : List Char),
      linkPart row = [] → descPart row = [x] → format_evidence_entry row = x)
    ∧ (∀ row : EvidenceRow,
      linkPart row = [] → descPart row = [] → format_evidence_entry row = [])
    ∧ (∀ row : EvidenceRow,
      row.description = none ∨ row.description = some [] →
      descPart row = filePart row)
    ∧ (∀ (row : EvidenceRow) (d : List Char),
      row.description = some d → d ≠ [] →
      descPart row = (if containsSub "IGNORE".data (upperL (pyStrip d)) then []
                      else [pyStrip d]))
    ∧ format_evidence_entry ⟨none, some "http://x".data, some "Policy doc".data, none, none⟩
        = "[http://x] - Policy doc".data
    ∧ format_evidence_entry ⟨none, none, some "ignore this".data, none, none⟩ = []
    ∧ format_evidence_entry ⟨some "f.pdf".data, none, none, none, none⟩
        = "f.pdf".data := by
  refine ⟨?_, ?_, ?_, ?_, ?_, ?_, by decide, by decide, by decide⟩
  · intro row l d hl hlne hd hdne hig
    obtain ⟨fn, link, desc, sug, prov⟩ := row
    simp only at hl hd
    subst hl
    subst hd
    simp [format_evidence_entry, linkPart, descPart, hlne, hdne, hig,
      List.append_assoc]
  · intro row l hl hlne hdp
    obtain ⟨fn, link, desc, sug, prov⟩ := row
    simp only at hl
    subst hl
    simp [format_evidence_entry, linkPart, hlne, hdp]
  · intro row x hlp hdp
    simp [format_evidence_entry, hlp, hdp]
  · intro row hlp hdp
    simp [format_evidence_entry, hlp, hdp]
  · intro row h
    rcases h with h | h <;> simp [descPart, h]
  · intro row d hd hdne
    simp [descPart, hd, hdne]

theorem formatter_cases_witness :
    format_evidence_entry
      ⟨none, some " http://x ".data, some " Policy doc ".data, none, none⟩
      = ('[' :: pyStrip " http://x ".data) ++ "] - ".data ++ pyStrip " Policy doc ".data :=
  formatter_cases.1 _ _ _ rfl (by decide) rfl (by decide) (by decide)

/-- C8: a row with a usable identifier, score 3 or 5 and remediation status
resolving to POA&M contributes exactly one error, which mentions the
identifier; with score 1 it contributes no error; and validation collects the
per-row errors and warnings of every row, in order, without halting. -/
theorem validator_poam_rule (rows : List ControlRow) (i : Nat) (row : ControlRow)
    (rid : List Char) (hid : row.cmmc_ID = some rid) (hne : ¬ pyStrip rid = []) :
    ((row.score = some 3 ∨ row.score = some 5) →
      (upperL row.ar_CAP_POAM = "POA&M".data ∨ upperL row.ar_CAP_POAM = "POAM".data) →
      rowErrs i row = [msgPoam rid row.score row.ar_CAP_POAM]
        ∧ containsSub rid (msgPoam rid row.score row.ar_CAP_POAM) = true)
    ∧ (row.score = some 1 → rowErrs i row = [])
    ∧ validate_csv_data rows
        = ((mapIdxFrom rowErrs 0 rows).flatten, (rows.map rowWarns).flatten) := by
  refine ⟨?_, ?_, ?_⟩
  · intro hsc hst
    constructor
    · have hval : row.score = some 1 ∨ row.score = some 3 ∨ row.score = some 5 := by
        tauto
      simp only [rowErrs, hid]
      rw [if_neg hne, if_pos hval, if_pos ⟨hsc, hst⟩]
      simp
    · unfold msgPoam
      simp only [List.append_assoc]
      exact containsSub_middle _ _ _
  · intro h1
    simp only [rowErrs, hid]
    rw [if_neg hne, if_pos (Or.inl h1), if_neg]
    · simp
    · rintro ⟨h35, _⟩
      rcases h35 with h | h <;> rw [h1] at h <;> exact absurd h (by decide)
  · exact (validateAux_spec rows 0 [] []).trans (by simp)

theorem validator_poam_rule_witness :
    rowErrs 0 ⟨some "3.1.1".data, some "desc".data, some 3, "POA&M".data⟩
      = [msgPoam "3.1.1".data (some 3) "POA&M".data]
    ∧ containsSub "3.1.1".data (msgPoam "3.1.1".data (some 3) "POA&M".data) = true
    ∧ rowErrs 0 ⟨some "3.1.1".data, some "desc".data, some 1, "POA&M".data⟩ = [] := by
  have h := validator_poam_rule []
    0 ⟨some "3.1.1".data, some "desc".data, some 3, "POA&M".data⟩
    "3.1.1".data rfl (by decide)
  have h2 := validator_poam_rule []
    0 ⟨some "3.1.1".data, some "desc".data, some 1, "POA&M".data⟩
    "3.1.1".data rfl (by decide)
  exact ⟨(h.1 (Or.inl rfl) (Or.inl (by decide))).1,
    (h.1 (Or.inl rfl) (Or.inl (by decide))).2,
    h2.2.1 rfl⟩
